import Mathlib

/-!
# Verification of the entry-centric time-axis mapping engine

Shallow embedding of `src/frontend/app.js` (EnergyTrack).  Times are
millisecond instants and screen positions are pixel offsets; both are
modelled as exact rationals (`ℚ`).  JavaScript `Date.now()` calls are
modelled by passing the sampled clock value as an explicit argument.
-/

/-- An entry as fetched from the server: an absolute timestamp (ms),
an optional description and an optional energy value. -/
structure Entry where
  timestamp : ℚ
  description : Option String := none
  energy : Option ℤ := none
  deriving Repr, DecidableEq

/-- An anchor of the derived scale, as pushed by `buildAnchorMap`:
`{ time, y, gapFromPrev, gapY, isNow, entry }`.  The synthetic "now"
anchor is `{ time: now, y: 0, isNow: true }`; its `gapFromPrev` and
`gapY` fields are never read by any mapper (the scans only read
`gapY` of `anchors[i+1]`, `i ≥ 0`), so they are set to `0` here. -/
structure Anchor where
  time : ℚ
  y : ℚ
  gapFromPrev : ℚ
  gapY : ℚ
  isNow : Bool
  entry : Option Entry
  deriving Repr, DecidableEq

/-- `MAX_SCROLL_BACK_MS = 12 * 60 * 60 * 1000` (12 hours). -/
def MAX_SCROLL_BACK_MS : ℚ := 12 * 60 * 60 * 1000

/-- `allocateGapSpace(gapMinutes)` from app.js lines 37-46: fixed pixel
spans for time-gap buckets. -/
def allocateGapSpace (gapMinutes : ℚ) : ℚ :=
  if gapMinutes ≤ 0 then 0
  else if gapMinutes ≤ 5 then 110
  else if gapMinutes ≤ 30 then 145
  else if gapMinutes ≤ 60 then 180
  else if gapMinutes ≤ 120 then 220
  else if gapMinutes ≤ 360 then 280
  else if gapMinutes ≤ 720 then 350
  else 420

/-- One step of the sort used in `buildAnchorMap`:
`[...entries].sort((a, b) => b.time - a.time)` sorts newest first.  We
realise that comparator by insertion; the order among entries with equal
timestamps is irrelevant to every mapped quantity (times, ys, gapYs are
determined by the multiset of timestamps). -/
def insertByTimeDesc (e : Entry) : List Entry → List Entry
  | [] => [e]
  | x :: xs => if x.timestamp < e.timestamp then e :: x :: xs else x :: insertByTimeDesc e xs

/-- Sort entries newest-first by timestamp (app.js lines 51-53). -/
def sortEntriesDesc : List Entry → List Entry
  | [] => []
  | e :: es => insertByTimeDesc e (sortEntriesDesc es)

/-- The synthetic first anchor `{ time: now, y: 0, isNow: true }`. -/
def nowAnchor (now : ℚ) : Anchor :=
  { time := now, y := 0, gapFromPrev := 0, gapY := 0, isNow := true, entry := none }

/-- The `sorted.forEach` loop of `buildAnchorMap` (app.js lines 59-75):
for each entry, `gapY = allocateGapSpace((prev.time - entryTime)/60000)`,
`y = prev.y + gapY`. -/
def buildAnchors (prev : Anchor) : List Entry → List Anchor
  | [] => []
  | e :: rest =>
      let gapMinutes := (prev.time - e.timestamp) / 60000
      let gapY := allocateGapSpace gapMinutes
      let a : Anchor :=
        { time := e.timestamp, y := prev.y + gapY, gapFromPrev := gapMinutes,
          gapY := gapY, isNow := false, entry := some e }
      a :: buildAnchors a rest

/-- `buildAnchorMap(entries, now)` (app.js lines 49-78). -/
def buildAnchorMap (entries : List Entry) (now : ℚ) : List Anchor :=
  nowAnchor now :: buildAnchors (nowAnchor now) (sortEntriesDesc entries)

/-- `anchors[anchors.length - 1]` for the nonempty list `a :: rest`. -/
def lastAnchor (a : Anchor) : List Anchor → Anchor
  | [] => a
  | b :: rest => lastAnchor b rest

/-- The oldest (last) anchor of `buildAnchorMap entries now`. -/
def oldestAnchorOf (entries : List Entry) (now : ℚ) : Anchor :=
  match buildAnchorMap entries now with
  | [] => nowAnchor now
  | a :: rest => lastAnchor a rest

/-- The bracket scan of `timeToY_entryCentric` (app.js lines 86-97): walk
consecutive anchor pairs `(upper, lower)`; on the first pair with
`lower.time ≤ time ≤ upper.time` return the interpolated y. -/
def timeToYGo (time : ℚ) : List Anchor → Option ℚ
  | upper :: lower :: rest =>
      if lower.time ≤ time ∧ time ≤ upper.time then
        some (if upper.time - lower.time = 0 then upper.y
              else upper.y + ((upper.time - time) / (upper.time - lower.time)) * lower.gapY)
      else timeToYGo time (lower :: rest)
  | _ => none

/-- `timeToY_entryCentric(timestamp, anchors)` (app.js lines 82-108):
bracket scan, then extrapolation past the oldest anchor via
`allocateGapSpace`, and `0` for an empty anchor list. -/
def timeToY_entryCentric (time : ℚ) (anchors : List Anchor) : ℚ :=
  match timeToYGo time anchors with
  | some y => y
  | none =>
    match anchors with
    | [] => 0
    | a :: rest =>
        let oldest := lastAnchor a rest
        oldest.y + allocateGapSpace ((oldest.time - time) / 60000)

/-- The bracket scan of `yToTime_entryCentric` (app.js lines 114-125):
on the first pair with `upper.y ≤ y ≤ lower.y` return the interpolated
time, with ratio `0` when `lower.gapY ≤ 0`. -/
def yToTimeGo (y : ℚ) : List Anchor → Option ℚ
  | upper :: lower :: rest =>
      if upper.y ≤ y ∧ y ≤ lower.y then
        some (upper.time -
          (if 0 < lower.gapY then (y - upper.y) / lower.gapY else 0) * (upper.time - lower.time))
      else yToTimeGo y (lower :: rest)
  | _ => none

/-- `yToTime_entryCentric(y, anchors)` (app.js lines 112-139): bracket
scan, then linear extrapolation `(extraY / 420) * 720` minutes past the
oldest anchor, and `Date.now()` otherwise — the clock sampled at query
time is the explicit argument `clockNow`. -/
def yToTime_entryCentric (y : ℚ) (anchors : List Anchor) (clockNow : ℚ) : ℚ :=
  match yToTimeGo y anchors with
  | some t => t
  | none =>
    match anchors with
    | [] => clockNow
    | a :: rest =>
        let oldest := lastAnchor a rest
        if oldest.y < y then oldest.time - ((y - oldest.y) / 420 * 720) * 60000
        else clockNow

/-- The draft being composed: `state.draft`. -/
structure Draft where
  text : String
  energy : Option ℤ
  timestamp : ℚ
  deriving Repr, DecidableEq

/-- The in-memory state fields the core touches: `state.entries`,
`state.draft`, `state.isDraftMode`. -/
structure AppState where
  entries : List Entry
  draft : Draft
  isDraftMode : Bool
  deriving Repr, DecidableEq

/-- `updateTimestampFromScroll()` (app.js lines 356-371).  The DOM reads
(`scrollHeight`, `clientHeight`, `scrollTop`) and the `Date.now()`
sample are explicit arguments; `yToTime_entryCentric`'s own `Date.now()`
fallback sees the same tick's clock. -/
def updateTimestampFromScroll (scrollHeight clientHeight scrollTop : ℚ)
    (anchors : List Anchor) (now : ℚ) (s : AppState) : AppState :=
  let maxScroll := scrollHeight - clientHeight
  let scrollFromBottom := maxScroll - scrollTop
  let targetTime := yToTime_entryCentric scrollFromBottom anchors now
  let msBack := now - targetTime
  let clampedMs := min (max 0 msBack) MAX_SCROLL_BACK_MS
  { s with draft := { s.draft with timestamp := now - clampedMs } }

/-- Outcome of the `fetch` in `fetchEntries` (app.js lines 190-199):
OK response with parsed body, non-OK response, or a thrown network
error (caught by the `try`/`catch`). -/
inductive FetchResult where
  | ok (entries : List Entry)
  | notOk
  | networkError
  deriving Repr, DecidableEq

/-- `fetchEntries()` effect on `state`: only an OK response assigns
`state.entries`; a non-OK response or a caught error leaves the state
unchanged. -/
def fetchEntries (s : AppState) (r : FetchResult) : AppState :=
  match r with
  | .ok es => { s with entries := es }
  | .notOk => s
  | .networkError => s

/-- `saveEntry()` effect on `state` (app.js lines 202-231): early return
when the draft has no text and no energy; on a successful POST the
returned entry is unshifted onto `state.entries` and `exitDraftMode()`
resets the draft (`timestamp: Date.now()`, modelled by `clock`); on a
non-OK response or a caught error the state is unchanged.
`postResult = none` models both failure modes. -/
def saveEntry (s : AppState) (postResult : Option Entry) (clock : ℚ) : AppState :=
  if s.draft.text = "" ∧ s.draft.energy = none then s
  else
    match postResult with
    | some newEntry =>
        { entries := newEntry :: s.entries,
          draft := { text := "", energy := none, timestamp := clock },
          isDraftMode := false }
    | none => s

/-- `buildAnchorMap` with the caller's array threaded explicitly:
`[...entries]` allocates a fresh array and `.sort` mutates that copy
only, so the second component — the contents of the caller's `entries`
array after the call — is the untouched input. -/
def buildAnchorMapCall (entries : List Entry) (now : ℚ) : List Anchor × List Entry :=
  let copy := entries
  let sortedCopy := sortEntriesDesc copy
  (nowAnchor now :: buildAnchors (nowAnchor now) sortedCopy, entries)

/-- Minimum timestamp of the nonempty entry list `e :: es` — the
"oldest entry time". -/
def minTimestamp (e : Entry) : List Entry → ℚ
  | [] => e.timestamp
  | x :: xs => min e.timestamp (minTimestamp x xs)

/-! ## Basic properties of `allocateGapSpace` -/

theorem allocateGapSpace_nonneg (x : ℚ) : 0 ≤ allocateGapSpace x := by
  unfold allocateGapSpace
  split_ifs <;> norm_num

set_option maxHeartbeats 1000000 in
theorem allocateGapSpace_mono {x y : ℚ} (h : x ≤ y) :
    allocateGapSpace x ≤ allocateGapSpace y := by
  unfold allocateGapSpace
  split_ifs <;> linarith

theorem allocateGapSpace_eq_zero {x : ℚ} (h : x ≤ 0) : allocateGapSpace x = 0 := by
  unfold allocateGapSpace
  rw [if_pos h]

theorem allocateGapSpace_nonpos_of_eq_zero {x : ℚ} (h : allocateGapSpace x = 0) : x ≤ 0 := by
  by_contra hx
  push_neg at hx
  unfold allocateGapSpace at h
  split_ifs at h <;> linarith

theorem allocateGapSpace_ge_of_pos {x : ℚ} (h : 0 < x) : 110 ≤ allocateGapSpace x := by
  unfold allocateGapSpace
  split_ifs <;> linarith

/-! ## Sort properties -/

/-- Adjacent-pair relation for a newest-first entry list. -/
def EntryDesc (a b : Entry) : Prop := b.timestamp ≤ a.timestamp

theorem insertByTimeDesc_perm (e : Entry) (l : List Entry) :
    List.Perm (insertByTimeDesc e l) (e :: l) := by
  induction l with
  | nil => rfl
  | cons x xs ih =>
      unfold insertByTimeDesc
      split
      · exact List.Perm.refl _
      · exact (ih.cons x).trans (List.Perm.swap e x xs)

theorem sortEntriesDesc_perm (l : List Entry) : List.Perm (sortEntriesDesc l) l := by
  induction l with
  | nil => rfl
  | cons e es ih =>
      exact (insertByTimeDesc_perm e (sortEntriesDesc es)).trans (ih.cons e)

theorem insertByTimeDesc_chain' (e : Entry) (l : List Entry)
    (h : List.Chain' EntryDesc l) : List.Chain' EntryDesc (insertByTimeDesc e l) := by
  induction l with
  | nil => simp [insertByTimeDesc]
  | cons x xs ih =>
      rw [List.chain'_cons'] at h
      unfold insertByTimeDesc
      split
      · rename_i hlt
        rw [List.chain'_cons]
        exact ⟨le_of_lt hlt, List.chain'_cons'.2 h⟩
      · rename_i hge
        rw [List.chain'_cons']
        refine ⟨?_, ih h.2⟩
        intro z hz
        cases xs with
        | nil =>
            simp [insertByTimeDesc] at hz
            subst hz
            exact not_lt.1 hge
        | cons y ys =>
            unfold insertByTimeDesc at hz
            split at hz
            · simp at hz
              subst hz
              exact not_lt.1 hge
            · simp at hz
              subst hz
              exact h.1 y rfl

theorem sortEntriesDesc_chain' (l : List Entry) :
    List.Chain' EntryDesc (sortEntriesDesc l) := by
  induction l with
  | nil => simp [sortEntriesDesc]
  | cons e es ih => exact insertByTimeDesc_chain' e _ ih

theorem insertByTimeDesc_ne_nil (e : Entry) (l : List Entry) :
    insertByTimeDesc e l ≠ [] := by
  cases l with
  | nil => simp [insertByTimeDesc]
  | cons x xs =>
      unfold insertByTimeDesc
      split <;> simp

theorem sortEntriesDesc_cons_ne_nil (e : Entry) (es : List Entry) :
    sortEntriesDesc (e :: es) ≠ [] := by
  unfold sortEntriesDesc
  exact insertByTimeDesc_ne_nil e _

/-! ## Structural invariants of the anchor map -/

/-- Adjacent anchors are linked exactly as `buildAnchorMap` pushes them:
the lower anchor's `gapY` is the allocation of the time gap and its `y`
is the upper anchor's `y` plus that `gapY`. -/
def ChainAnchors : List Anchor → Prop
  | u :: l :: rest =>
      l.gapY = allocateGapSpace ((u.time - l.time) / 60000) ∧ l.y = u.y + l.gapY ∧
        ChainAnchors (l :: rest)
  | _ => True

/-- Anchor times are non-increasing along the list. -/
def TimesNonincr : List Anchor → Prop := List.Chain' (fun a b => b.time ≤ a.time)

theorem chainAnchors_build (l : List Entry) (a : Anchor) :
    ChainAnchors (a :: buildAnchors a l) := by
  induction l generalizing a with
  | nil => trivial
  | cons e rest ih =>
      refine ⟨rfl, rfl, ?_⟩
      exact ih _

theorem buildAnchors_map_time (l : List Entry) (a : Anchor) :
    (buildAnchors a l).map Anchor.time = l.map Entry.timestamp := by
  induction l generalizing a with
  | nil => rfl
  | cons e rest ih => simp [buildAnchors, ih]

theorem timesNonincr_buildAnchors (l : List Entry) (a : Anchor)
    (h : List.Chain' EntryDesc l) : TimesNonincr (buildAnchors a l) := by
  have h1 : List.Chain' (fun s t : ℚ => t ≤ s) (l.map Entry.timestamp) := by
    rw [List.chain'_map]
    exact h
  rw [← buildAnchors_map_time l a, List.chain'_map] at h1
  exact h1

theorem lastAnchor_cons (a b : Anchor) (l : List Anchor) :
    lastAnchor a (b :: l) = lastAnchor b l := rfl

theorem lastAnchor_time_le (u : Anchor) (rest : List Anchor)
    (h : TimesNonincr (u :: rest)) : (lastAnchor u rest).time ≤ u.time := by
  induction rest generalizing u with
  | nil => simp [lastAnchor]
  | cons b bs ih =>
      rw [TimesNonincr, List.chain'_cons] at h
      exact le_trans (ih b h.2) h.1

theorem lastAnchor_time_le_mem (u : Anchor) (rest : List Anchor)
    (h : TimesNonincr (u :: rest)) :
    ∀ z ∈ u :: rest, (lastAnchor u rest).time ≤ z.time := by
  induction rest generalizing u with
  | nil =>
      intro z hz
      simp at hz
      subst hz
      simp [lastAnchor]
  | cons b bs ih =>
      intro z hz
      rw [TimesNonincr, List.chain'_cons] at h
      rcases List.mem_cons.1 hz with hz | hz
      · subst hz
        exact le_trans (lastAnchor_time_le b bs h.2) h.1
      · exact ih b h.2 z hz

theorem chain_y_le_last (u : Anchor) (rest : List Anchor)
    (h : ChainAnchors (u :: rest)) : u.y ≤ (lastAnchor u rest).y := by
  induction rest generalizing u with
  | nil => simp [lastAnchor]
  | cons b bs ih =>
      obtain ⟨hg, hy, hc⟩ := h
      have h1 : u.y ≤ b.y := by
        have := allocateGapSpace_nonneg ((u.time - b.time) / 60000)
        rw [← hg] at this
        linarith
      exact le_trans h1 (ih b hc)

theorem chain_mem_y_le_last (u : Anchor) (rest : List Anchor)
    (h : ChainAnchors (u :: rest)) :
    ∀ z ∈ u :: rest, z.y ≤ (lastAnchor u rest).y := by
  induction rest generalizing u with
  | nil =>
      intro z hz
      simp at hz
      subst hz
      simp [lastAnchor]
  | cons b bs ih =>
      intro z hz
      obtain ⟨hg, hy, hc⟩ := h
      rcases List.mem_cons.1 hz with hz | hz
      · subst hz
        have h1 : z.y ≤ b.y := by
          have := allocateGapSpace_nonneg ((z.time - b.time) / 60000)
          rw [← hg] at this
          linarith
        exact le_trans h1 (chain_y_le_last b bs hc)
      · exact ih b hc z hz

/-- Along a chain with non-increasing times, if the last anchor's time
equals the head's, the whole segment is flat: all allocations are zero
and the last anchor's `y` equals the head's. -/
theorem chain_flat_y (u : Anchor) (rest : List Anchor)
    (hch : ChainAnchors (u :: rest)) (hts : TimesNonincr (u :: rest))
    (hflat : (lastAnchor u rest).time = u.time) :
    (lastAnchor u rest).y = u.y := by
  induction rest generalizing u with
  | nil => simp [lastAnchor]
  | cons b bs ih =>
      obtain ⟨hg, hy, hc⟩ := hch
      rw [TimesNonincr, List.chain'_cons] at hts
      rw [lastAnchor_cons] at hflat ⊢
      have hbts : b.time = u.time := by
        have h1 : (lastAnchor b bs).time ≤ b.time := lastAnchor_time_le b bs hts.2
        have h2 : b.time ≤ u.time := hts.1
        linarith [hflat ▸ h1]
      have hgap0 : b.gapY = 0 := by
        rw [hg, hbts]
        simpa using allocateGapSpace_eq_zero (by norm_num)
      have hby : b.y = u.y := by rw [hy, hgap0, add_zero]
      rw [ih b hc hts.2 (by rw [hflat, hbts]), hby]

/-- Dual of `chain_flat_y`: if the last anchor's `y` equals the head's,
the whole segment has equal times. -/
theorem chain_flat_time (u : Anchor) (rest : List Anchor)
    (hch : ChainAnchors (u :: rest)) (hts : TimesNonincr (u :: rest))
    (hflat : (lastAnchor u rest).y = u.y) :
    (lastAnchor u rest).time = u.time := by
  induction rest generalizing u with
  | nil => simp [lastAnchor]
  | cons b bs ih =>
      obtain ⟨hg, hy, hc⟩ := hch
      rw [TimesNonincr, List.chain'_cons] at hts
      rw [lastAnchor_cons] at hflat ⊢
      have hby : b.y = u.y := by
        have h1 : b.y ≤ (lastAnchor b bs).y := chain_y_le_last b bs hc
        have h2 : u.y ≤ b.y := by
          have := allocateGapSpace_nonneg ((u.time - b.time) / 60000)
          rw [← hg] at this
          linarith
        linarith [hflat ▸ h1]
      have hgap0 : b.gapY = 0 := by rw [hy] at hby; linarith
      have hbts : b.time = u.time := by
        have h1 : (u.time - b.time) / 60000 ≤ 0 :=
          allocateGapSpace_nonpos_of_eq_zero (hg ▸ hgap0)
        have h2 : b.time ≤ u.time := hts.1
        have h3 : u.time - b.time ≤ 0 := by linarith
        linarith
      rw [ih b hc hts.2 (by rw [hflat, hby]), hbts]

/-! ## Bracket-scan lemmas -/

theorem timeToYGo_none_of_lt (t : ℚ) (u : Anchor) (rest : List Anchor)
    (h : ∀ l ∈ rest, t < l.time) : timeToYGo t (u :: rest) = none := by
  induction rest generalizing u with
  | nil => rfl
  | cons l rs ih =>
      unfold timeToYGo
      rw [if_neg]
      · exact ih l fun z hz => h z (List.mem_cons_of_mem l hz)
      · intro hcond
        exact absurd hcond.1 (not_le.2 (h l (List.mem_cons_self l rs)))

theorem timeToYGo_none_of_gt (t : ℚ) (u : Anchor) (rest : List Anchor)
    (h : ∀ x ∈ u :: rest, x.time < t) : timeToYGo t (u :: rest) = none := by
  induction rest generalizing u with
  | nil => rfl
  | cons l rs ih =>
      unfold timeToYGo
      rw [if_neg]
      · exact ih l fun z hz => h z (List.mem_cons_of_mem u hz)
      · intro hcond
        exact absurd hcond.2 (not_le.2 (h u (List.mem_cons_self u _)))

theorem yToTimeGo_none_of_gt (y : ℚ) (u : Anchor) (rest : List Anchor)
    (h : ∀ l ∈ rest, l.y < y) : yToTimeGo y (u :: rest) = none := by
  induction rest generalizing u with
  | nil => rfl
  | cons l rs ih =>
      unfold yToTimeGo
      rw [if_neg]
      · exact ih l fun z hz => h z (List.mem_cons_of_mem l hz)
      · intro hcond
        exact absurd hcond.2 (not_le.2 (h l (List.mem_cons_self l rs)))

theorem timeToYGo_total (t : ℚ) (u : Anchor) (rest : List Anchor)
    (hne : rest ≠ []) (ht : t ≤ u.time) (hlast : (lastAnchor u rest).time ≤ t) :
    ∃ yv, timeToYGo t (u :: rest) = some yv := by
  induction rest generalizing u with
  | nil => exact absurd rfl hne
  | cons l rs ih =>
      by_cases hl : l.time ≤ t
      · refine ⟨if u.time - l.time = 0 then u.y
          else u.y + ((u.time - t) / (u.time - l.time)) * l.gapY, ?_⟩
        unfold timeToYGo
        rw [if_pos ⟨hl, ht⟩]
      · cases rs with
        | nil =>
            rw [lastAnchor_cons] at hlast
            exact absurd hlast hl
        | cons r rs' =>
            obtain ⟨yv, hyv⟩ := ih l (by simp) (le_of_lt (not_le.1 hl))
              (by rw [lastAnchor_cons] at hlast; exact hlast)
            refine ⟨yv, ?_⟩
            unfold timeToYGo
            rw [if_neg fun hcond => hl hcond.1]
            exact hyv

theorem timeToYGo_ge_head (t : ℚ) (u : Anchor) (rest : List Anchor) (yv : ℚ)
    (hch : ChainAnchors (u :: rest)) (hs : timeToYGo t (u :: rest) = some yv) :
    u.y ≤ yv := by
  induction rest generalizing u with
  | nil => simp [timeToYGo] at hs
  | cons l rs ih =>
      obtain ⟨hg, hy, hc⟩ := hch
      unfold timeToYGo at hs
      split at hs
      · rename_i hcond
        split at hs
        · rename_i h0
          rw [← Option.some_inj.1 hs]
        · rename_i h0
          rw [← Option.some_inj.1 hs]
          have hdpos : 0 < u.time - l.time := by
            rcases lt_or_eq_of_le (by linarith [hcond.1, hcond.2] :
              (0:ℚ) ≤ u.time - l.time) with h | h
            · exact h
            · exact absurd h.symm h0
          have hrnn : 0 ≤ (u.time - t) / (u.time - l.time) :=
            div_nonneg (by linarith [hcond.2]) (le_of_lt hdpos)
          have hgnn : 0 ≤ l.gapY := hg ▸ allocateGapSpace_nonneg _
          nlinarith
      · have h1 : l.y ≤ yv := ih l hc hs
        have hgnn : 0 ≤ l.gapY := hg ▸ allocateGapSpace_nonneg _
        linarith

/-- On a time-sorted chain, the forward scan's result is at least the
head's `y`, with equality only when `t` is the head's time. -/
theorem timeToYGo_lb (t : ℚ) (u : Anchor) (rest : List Anchor) (yv : ℚ)
    (hch : ChainAnchors (u :: rest)) (hts : TimesNonincr (u :: rest))
    (ht : t ≤ u.time) (hs : timeToYGo t (u :: rest) = some yv) :
    u.y ≤ yv ∧ (yv = u.y → t = u.time) := by
  induction rest generalizing u with
  | nil => simp [timeToYGo] at hs
  | cons l rs ih =>
      obtain ⟨hg, hy, hc⟩ := hch
      rw [TimesNonincr, List.chain'_cons] at hts
      unfold timeToYGo at hs
      split at hs
      · rename_i hcond
        by_cases h0 : u.time - l.time = 0
        · rw [if_pos h0] at hs
          have hv : yv = u.y := (Option.some_inj.1 hs).symm
          exact ⟨le_of_eq hv.symm, fun _ => by linarith [hcond.1, hcond.2]⟩
        · rw [if_neg h0] at hs
          have hv : yv = u.y + (u.time - t) / (u.time - l.time) * l.gapY :=
            (Option.some_inj.1 hs).symm
          have hdpos : 0 < u.time - l.time := by
            rcases lt_or_eq_of_le (by linarith [hcond.1, hcond.2] :
              (0:ℚ) ≤ u.time - l.time) with h | h
            · exact h
            · exact absurd h.symm h0
          have hgpos : 110 ≤ l.gapY := by
            rw [hg]
            exact allocateGapSpace_ge_of_pos (by positivity)
          have hrnn : 0 ≤ (u.time - t) / (u.time - l.time) :=
            div_nonneg (by linarith) (le_of_lt hdpos)
          constructor
          · nlinarith
          · intro hveq
            rw [hveq] at hv
            have hr0 : (u.time - t) / (u.time - l.time) = 0 := by nlinarith
            have := (div_eq_zero_iff.1 hr0).resolve_right h0
            linarith
      · rename_i hnc
        have htl : t < l.time := by
          by_contra hcon
          exact hnc ⟨not_lt.1 hcon, ht⟩
        obtain ⟨h1, h2⟩ := ih l hc hts.2 (le_of_lt htl) hs
        have hgnn : 0 ≤ l.gapY := hg ▸ allocateGapSpace_nonneg _
        constructor
        · linarith
        · intro hveq
          have hly : l.y = u.y := by linarith [hveq ▸ h1]
          have hteq : t = l.time := h2 (by linarith)
          have hgy0 : l.gapY = 0 := by linarith [hy ▸ hly]
          have hud : (u.time - l.time) / 60000 ≤ 0 :=
            allocateGapSpace_nonpos_of_eq_zero (hg ▸ hgy0)
          have : u.time ≤ l.time := by linarith
          linarith [hts.1]

/-- On a fully time-sorted chain, querying the forward scan at the last
anchor's time yields exactly the last anchor's `y`. -/
theorem timeToYGo_last (u : Anchor) (rest : List Anchor)
    (hch : ChainAnchors (u :: rest)) (hts : TimesNonincr (u :: rest))
    (hne : rest ≠ []) :
    timeToYGo (lastAnchor u rest).time (u :: rest) = some (lastAnchor u rest).y := by
  induction rest generalizing u with
  | nil => exact absurd rfl hne
  | cons l rs ih =>
      obtain ⟨hg, hy, hc⟩ := hch
      have hts' := hts
      rw [TimesNonincr, List.chain'_cons] at hts'
      rw [lastAnchor_cons]
      have holl : (lastAnchor l rs).time ≤ l.time := lastAnchor_time_le l rs hts'.2
      by_cases hol : l.time ≤ (lastAnchor l rs).time
      · have hoeq : (lastAnchor l rs).time = l.time := le_antisymm holl hol
        unfold timeToYGo
        rw [if_pos ⟨hol, by linarith [hts'.1]⟩]
        by_cases h0 : u.time - l.time = 0
        · rw [if_pos h0]
          have hflat : (lastAnchor u (l :: rs)).time = u.time := by
            rw [lastAnchor_cons, hoeq]
            linarith
          have := chain_flat_y u (l :: rs) ⟨hg, hy, hc⟩ hts hflat
          rw [lastAnchor_cons] at this
          rw [this]
        · rw [if_neg h0]
          have hrat : (u.time - (lastAnchor l rs).time) / (u.time - l.time) = 1 := by
            rw [hoeq]
            exact div_self h0
          have hflat : (lastAnchor l rs).y = l.y :=
            chain_flat_y l rs hc hts'.2 hoeq
          rw [hrat, hflat, one_mul, ← hy]
      · cases rs with
        | nil => simp [lastAnchor] at hol
        | cons r rs' =>
            unfold timeToYGo
            rw [if_neg fun hcond => hol hcond.1]
            exact ih l hc hts'.2 (by simp)

/-- On a fully time-sorted chain, querying the inverse scan at the last
anchor's `y` yields exactly the last anchor's time. -/
theorem yToTimeGo_last (u : Anchor) (rest : List Anchor)
    (hch : ChainAnchors (u :: rest)) (hts : TimesNonincr (u :: rest))
    (hne : rest ≠ []) :
    yToTimeGo (lastAnchor u rest).y (u :: rest) = some (lastAnchor u rest).time := by
  induction rest generalizing u with
  | nil => exact absurd rfl hne
  | cons l rs ih =>
      obtain ⟨hg, hy, hc⟩ := hch
      have hts' := hts
      rw [TimesNonincr, List.chain'_cons] at hts'
      rw [lastAnchor_cons]
      have huly : u.y ≤ l.y := by
        have := allocateGapSpace_nonneg ((u.time - l.time) / 60000)
        rw [← hg] at this
        linarith
      have holl : l.y ≤ (lastAnchor l rs).y := chain_y_le_last l rs hc
      by_cases hol : (lastAnchor l rs).y ≤ l.y
      · have hoeq : (lastAnchor l rs).y = l.y := le_antisymm hol holl
        unfold yToTimeGo
        rw [if_pos ⟨by linarith, hol⟩]
        by_cases hgp : 0 < l.gapY
        · rw [if_pos hgp]
          have hrat : ((lastAnchor l rs).y - u.y) / l.gapY = 1 := by
            rw [hoeq, hy]
            field_simp
          have hflat : (lastAnchor l rs).time = l.time :=
            chain_flat_time l rs hc hts'.2 hoeq
          rw [hrat, hflat, one_mul]
          congr 1
          ring
        · rw [if_neg hgp]
          have hgy0 : l.gapY = 0 := by
            have := hg ▸ allocateGapSpace_nonneg ((u.time - l.time) / 60000)
            linarith [not_lt.1 hgp]
          have hflat : (lastAnchor u (l :: rs)).y = u.y := by
            rw [lastAnchor_cons, hoeq, hy, hgy0, add_zero]
          have := chain_flat_time u (l :: rs) ⟨hg, hy, hc⟩ hts hflat
          rw [lastAnchor_cons] at this
          rw [this]
          congr 1
          ring
      · cases rs with
        | nil => simp [lastAnchor] at hol
        | cons r rs' =>
            unfold yToTimeGo
            rw [if_neg fun hcond => hol hcond.2]
            exact ih l hc hts'.2 (by simp)

/-- Round trip of the two bracket scans: whenever the forward scan finds
a bracket for `t` (with `t` no newer than the head and the tail
time-sorted), the inverse scan maps the resulting `y` back to exactly
`t`. -/
theorem yToTimeGo_timeToYGo (t : ℚ) (u : Anchor) (rest : List Anchor) (yv : ℚ)
    (hch : ChainAnchors (u :: rest)) (hts : TimesNonincr rest)
    (ht : t ≤ u.time) (hs : timeToYGo t (u :: rest) = some yv) :
    yToTimeGo yv (u :: rest) = some t := by
  induction rest generalizing u with
  | nil => simp [timeToYGo] at hs
  | cons l rs ih =>
      obtain ⟨hg, hy, hc⟩ := hch
      unfold timeToYGo at hs
      split at hs
      · rename_i hcond
        by_cases h0 : u.time - l.time = 0
        · rw [if_pos h0] at hs
          have hv : yv = u.y := (Option.some_inj.1 hs).symm
          have htu : t = u.time := by linarith [hcond.1, hcond.2]
          have hgy0 : l.gapY = 0 := by
            rw [hg]
            apply allocateGapSpace_eq_zero
            rw [(by linarith : u.time - l.time = 0)]
            norm_num
          have hly : l.y = u.y := by rw [hy, hgy0, add_zero]
          unfold yToTimeGo
          rw [if_pos ⟨le_of_eq hv.symm, by rw [hv, hly]⟩]
          rw [if_neg (by rw [hgy0]; norm_num)]
          rw [htu]
          congr 1
          ring
        · rw [if_neg h0] at hs
          have hv : yv = u.y + (u.time - t) / (u.time - l.time) * l.gapY :=
            (Option.some_inj.1 hs).symm
          have hdpos : 0 < u.time - l.time := by
            rcases lt_or_eq_of_le (by linarith [hcond.1, hcond.2] :
              (0:ℚ) ≤ u.time - l.time) with h | h
            · exact h
            · exact absurd h.symm h0
          have hgpos : 110 ≤ l.gapY := by
            rw [hg]
            exact allocateGapSpace_ge_of_pos (by positivity)
          have hr0 : 0 ≤ (u.time - t) / (u.time - l.time) :=
            div_nonneg (by linarith [hcond.2]) (le_of_lt hdpos)
          have hr1 : (u.time - t) / (u.time - l.time) ≤ 1 :=
            (div_le_one hdpos).2 (by linarith [hcond.1])
          unfold yToTimeGo
          rw [if_pos ⟨by nlinarith, by rw [hy]; nlinarith⟩]
          rw [if_pos (by linarith : 0 < l.gapY)]
          congr 1
          rw [hv]
          field_simp
          ring
      · rename_i hnc
        have htl : t < l.time := by
          by_contra hcon
          exact hnc ⟨not_lt.1 hcon, ht⟩
        cases rs with
        | nil => simp [timeToYGo] at hs
        | cons r rs' =>
            obtain ⟨hly, himp⟩ := timeToYGo_lb t l (r :: rs') yv hc hts
              (le_of_lt htl) hs
            have huly : u.y ≤ l.y := by
              have := allocateGapSpace_nonneg ((u.time - l.time) / 60000)
              rw [← hg] at this
              linarith
            by_cases hyl : yv ≤ l.y
            · have hveq : yv = l.y := le_antisymm hyl hly
              have hteq : t = l.time := himp hveq
              unfold yToTimeGo
              rw [if_pos ⟨by linarith, hyl⟩]
              by_cases hgp : 0 < l.gapY
              · rw [if_pos hgp]
                have hrat : (yv - u.y) / l.gapY = 1 := by
                  rw [hveq, hy]
                  field_simp
                rw [hrat, one_mul, hteq]
                congr 1
                ring
              · rw [if_neg hgp]
                have hgy0 : l.gapY = 0 := by
                  have := hg ▸ allocateGapSpace_nonneg ((u.time - l.time) / 60000)
                  linarith [not_lt.1 hgp]
                have hud : (u.time - l.time) / 60000 ≤ 0 :=
                  allocateGapSpace_nonpos_of_eq_zero (hg ▸ hgy0)
                have htu : t = u.time := by linarith [hteq]
                rw [htu]
                congr 1
                ring
            · unfold yToTimeGo
              rw [if_neg fun hcond2 => hyl hcond2.2]
              rw [TimesNonincr, List.chain'_cons] at hts
              exact ih l hc hts.2 (le_of_lt htl) hs

/-! ## Glue lemmas -/

theorem timeToY_of_scan {t : ℚ} {A : List Anchor} {yv : ℚ}
    (h : timeToYGo t A = some yv) : timeToY_entryCentric t A = yv := by
  unfold timeToY_entryCentric
  rw [h]

theorem yToTime_of_scan {y : ℚ} {A : List Anchor} {tv clock : ℚ}
    (h : yToTimeGo y A = some tv) : yToTime_entryCentric y A clock = tv := by
  unfold yToTime_entryCentric
  rw [h]

theorem timeToY_of_none {t : ℚ} {a : Anchor} {rest : List Anchor}
    (h : timeToYGo t (a :: rest) = none) :
    timeToY_entryCentric t (a :: rest) =
      (lastAnchor a rest).y + allocateGapSpace (((lastAnchor a rest).time - t) / 60000) := by
  unfold timeToY_entryCentric
  rw [h]

theorem yToTime_of_none {y : ℚ} {a : Anchor} {rest : List Anchor} {clock : ℚ}
    (h : yToTimeGo y (a :: rest) = none) :
    yToTime_entryCentric y (a :: rest) clock =
      if (lastAnchor a rest).y < y then
        (lastAnchor a rest).time - ((y - (lastAnchor a rest).y) / 420 * 720) * 60000
      else clock := by
  unfold yToTime_entryCentric
  rw [h]

theorem buildAnchors_ne_nil (a : Anchor) {l : List Entry} (h : l ≠ []) :
    buildAnchors a l ≠ [] := by
  cases l with
  | nil => exact absurd rfl h
  | cons e rest => simp [buildAnchors]

theorem minTimestamp_attained (e : Entry) (es : List Entry) :
    ∃ x ∈ e :: es, x.timestamp = minTimestamp e es := by
  induction es generalizing e with
  | nil => exact ⟨e, by simp, rfl⟩
  | cons x xs ih =>
      obtain ⟨z, hz, hzeq⟩ := ih x
      by_cases h : e.timestamp ≤ minTimestamp x xs
      · exact ⟨e, by simp, by simp [minTimestamp, min_eq_left h]⟩
      · refine ⟨z, List.mem_cons_of_mem e hz, ?_⟩
        rw [hzeq, minTimestamp, min_eq_right (le_of_not_le h)]

theorem minTimestamp_le (e : Entry) (es : List Entry) :
    ∀ x ∈ e :: es, minTimestamp e es ≤ x.timestamp := by
  induction es generalizing e with
  | nil =>
      intro x hx
      simp at hx
      subst hx
      exact le_refl _
  | cons z zs ih =>
      intro x hx
      rcases List.mem_cons.1 hx with hx | hx
      · subst hx
        exact min_le_left _ _
      · exact le_trans (min_le_right _ _) (ih z x hx)

/-- The last anchor of the built map has the minimum entry timestamp as
its time (stated as the inequality needed downstream). -/
theorem lastAnchor_build_le (e : Entry) (es : List Entry) (now : ℚ) :
    (lastAnchor (nowAnchor now)
      (buildAnchors (nowAnchor now) (sortEntriesDesc (e :: es)))).time ≤
      minTimestamp e es := by
  obtain ⟨x0, hx0mem, hx0eq⟩ := minTimestamp_attained e es
  have hperm := sortEntriesDesc_perm (e :: es)
  have hx0sorted : x0 ∈ sortEntriesDesc (e :: es) := hperm.mem_iff.2 hx0mem
  have hx0time : x0.timestamp ∈
      (buildAnchors (nowAnchor now) (sortEntriesDesc (e :: es))).map Anchor.time := by
    rw [buildAnchors_map_time]
    exact List.mem_map.2 ⟨x0, hx0sorted, rfl⟩
  obtain ⟨z, hzmem, hztime⟩ := List.mem_map.1 hx0time
  have hts : TimesNonincr (buildAnchors (nowAnchor now) (sortEntriesDesc (e :: es))) :=
    timesNonincr_buildAnchors _ _ (sortEntriesDesc_chain' _)
  cases htail : buildAnchors (nowAnchor now) (sortEntriesDesc (e :: es)) with
  | nil =>
      exact absurd htail (buildAnchors_ne_nil _ (sortEntriesDesc_cons_ne_nil e es))
  | cons b bs =>
      rw [htail] at hzmem hts
      have h1 := lastAnchor_time_le_mem b bs hts z hzmem
      rw [hztime, hx0eq] at h1
      rw [lastAnchor_cons]
      exact h1

/-! ## Claim C1 -/

/-- C1: Round-trip consistency.  For every anchor map built by
`buildAnchorMap` from a non-empty entry list and a time `now`, and every
timestamp `t` within the span of the existing entries
(oldest entry time ≤ t ≤ now),
`yToTime_entryCentric (timeToY_entryCentric t A) A` recovers `t`
exactly in the rational model — in particular within one unit of
position resolution — for any query-time clock sample. -/
theorem roundTrip_entryCentric (e : Entry) (es : List Entry) (now t clock : ℚ)
    (hlo : minTimestamp e es ≤ t) (hhi : t ≤ now) :
    yToTime_entryCentric (timeToY_entryCentric t (buildAnchorMap (e :: es) now))
      (buildAnchorMap (e :: es) now) clock = t := by
  have hsne : sortEntriesDesc (e :: es) ≠ [] := sortEntriesDesc_cons_ne_nil e es
  have htailne : buildAnchors (nowAnchor now) (sortEntriesDesc (e :: es)) ≠ [] :=
    buildAnchors_ne_nil _ hsne
  have hch : ChainAnchors
      (nowAnchor now :: buildAnchors (nowAnchor now) (sortEntriesDesc (e :: es))) :=
    chainAnchors_build _ _
  have hts : TimesNonincr (buildAnchors (nowAnchor now) (sortEntriesDesc (e :: es))) :=
    timesNonincr_buildAnchors _ _ (sortEntriesDesc_chain' _)
  have ht : t ≤ (nowAnchor now).time := hhi
  have hlast : (lastAnchor (nowAnchor now)
      (buildAnchors (nowAnchor now) (sortEntriesDesc (e :: es)))).time ≤ t :=
    le_trans (lastAnchor_build_le e es now) hlo
  obtain ⟨yv, hyv⟩ := timeToYGo_total t (nowAnchor now) _ htailne ht hlast
  have hinv := yToTimeGo_timeToYGo t (nowAnchor now) _ yv hch hts ht hyv
  show yToTime_entryCentric
      (timeToY_entryCentric t
        (nowAnchor now :: buildAnchors (nowAnchor now) (sortEntriesDesc (e :: es))))
      (nowAnchor now :: buildAnchors (nowAnchor now) (sortEntriesDesc (e :: es))) clock = t
  rw [timeToY_of_scan hyv]
  exact yToTime_of_scan hinv

/-- Witness for C1 at a concrete input: one entry five minutes old,
`t` two and a half minutes back, an arbitrary query clock. -/
theorem roundTrip_entryCentric_witness :
    minTimestamp ⟨-300000, none, none⟩ [] ≤ -150000 ∧ (-150000 : ℚ) ≤ 0 ∧
      yToTime_entryCentric
        (timeToY_entryCentric (-150000) (buildAnchorMap [⟨-300000, none, none⟩] 0))
        (buildAnchorMap [⟨-300000, none, none⟩] 0) 77 = -150000 :=
  ⟨by norm_num [minTimestamp], by norm_num,
    roundTrip_entryCentric ⟨-300000, none, none⟩ [] 0 (-150000) 77
      (by norm_num [minTimestamp]) (by norm_num)⟩

/-! ## Claim C5 -/

/-- C5: Backdate clamp.  Whatever the scroll geometry, anchor map and
prior state, after `updateTimestampFromScroll` runs with current time
`now`, the draft timestamp satisfies
`now − 12 hours ≤ timestamp ≤ now`. -/
theorem updateTimestampFromScroll_clamped
    (scrollHeight clientHeight scrollTop : ℚ) (anchors : List Anchor)
    (now : ℚ) (s : AppState) :
    now - MAX_SCROLL_BACK_MS ≤
        (updateTimestampFromScroll scrollHeight clientHeight scrollTop
          anchors now s).draft.timestamp ∧
      (updateTimestampFromScroll scrollHeight clientHeight scrollTop
          anchors now s).draft.timestamp ≤ now := by
  unfold updateTimestampFromScroll
  simp only []
  constructor
  · have h1 : min (max 0 (now - yToTime_entryCentric
        (scrollHeight - clientHeight - scrollTop) anchors now)) MAX_SCROLL_BACK_MS ≤
        MAX_SCROLL_BACK_MS := min_le_right _ _
    linarith
  · have h2 : (0:ℚ) ≤ min (max 0 (now - yToTime_entryCentric
        (scrollHeight - clientHeight - scrollTop) anchors now)) MAX_SCROLL_BACK_MS :=
      le_min (le_max_left _ _) (by norm_num [MAX_SCROLL_BACK_MS])
    linarith

/-! ## Claim C7 -/

/-- C7: Gap-allocation monotonicity.  For all durations `d1 ≤ d2`
(including zero and negative), `allocateGapSpace d1 ≤ allocateGapSpace d2`. -/
theorem allocateGapSpace_monotone (d1 d2 : ℚ) (h : d1 ≤ d2) :
    allocateGapSpace d1 ≤ allocateGapSpace d2 :=
  allocateGapSpace_mono h

/-- Witness for C7 at `d1 = -3`, `d2 = 100`. -/
theorem allocateGapSpace_monotone_witness :
    (-3 : ℚ) ≤ 100 ∧ allocateGapSpace (-3) ≤ allocateGapSpace 100 :=
  ⟨by norm_num, allocateGapSpace_monotone (-3) 100 (by norm_num)⟩

/-! ## Claim C9 -/

/-- C9: Atomicity on boundary I/O failure.  A failed `fetchEntries`
(non-OK response or network error) leaves the state unchanged, and a
failed `saveEntry` POST leaves the state — draft and entries —
unchanged, for every state and clock. -/
theorem io_failure_leaves_state_unchanged (s : AppState) (clock : ℚ) :
    fetchEntries s .notOk = s ∧ fetchEntries s .networkError = s ∧
      saveEntry s none clock = s := by
  refine ⟨rfl, rfl, ?_⟩
  unfold saveEntry
  split <;> rfl

/-! ## Claim C10 -/

/-- C10: `buildAnchorMap` does not mutate its argument.  In the
explicit-state model of the call (`buildAnchorMapCall`), the contents of
the caller's `entries` array after the call (second component) equal the
input — the code sorts the spread copy `[...entries]`, never the
argument — while the first component is the usual anchor map. -/
theorem buildAnchorMap_preserves_input (entries : List Entry) (now : ℚ) :
    (buildAnchorMapCall entries now).2 = entries ∧
      (buildAnchorMapCall entries now).1 = buildAnchorMap entries now :=
  ⟨rfl, rfl⟩

/-! ## Claim C8 -/

/-- C8: Worked example.  For entries at `now−5m`, `now−40m`, `now−3h`,
the anchor map's gap spans are 110, 180, 280 in newest-adjacent-first
order (the leading 0 is the synthetic "now" anchor's unused field),
the cumulative positions are 110, 290, 570,
`timeToY_entryCentric(now−40m)` is the cumulative position through the
second anchor (290), and `yToTime_entryCentric(0)` is `now`. -/
theorem workedExample_anchorMap (now clock : ℚ) :
    (buildAnchorMap [⟨now - 300000, none, none⟩, ⟨now - 2400000, none, none⟩,
        ⟨now - 10800000, none, none⟩] now).map Anchor.gapY = [0, 110, 180, 280] ∧
      (buildAnchorMap [⟨now - 300000, none, none⟩, ⟨now - 2400000, none, none⟩,
        ⟨now - 10800000, none, none⟩] now).map Anchor.y = [0, 110, 290, 570] ∧
      timeToY_entryCentric (now - 2400000)
        (buildAnchorMap [⟨now - 300000, none, none⟩, ⟨now - 2400000, none, none⟩,
          ⟨now - 10800000, none, none⟩] now) = 290 ∧
      yToTime_entryCentric 0
        (buildAnchorMap [⟨now - 300000, none, none⟩, ⟨now - 2400000, none, none⟩,
          ⟨now - 10800000, none, none⟩] now) clock = now := by
  refine ⟨?_, ?_, ?_, ?_⟩
  · simp [buildAnchorMap, sortEntriesDesc, insertByTimeDesc, buildAnchors, nowAnchor,
      allocateGapSpace]
    norm_num
  · simp [buildAnchorMap, sortEntriesDesc, insertByTimeDesc, buildAnchors, nowAnchor,
      allocateGapSpace]
    norm_num
  · simp [buildAnchorMap, sortEntriesDesc, insertByTimeDesc, buildAnchors, nowAnchor,
      allocateGapSpace, timeToY_entryCentric, timeToYGo]
    rw [if_neg (by linarith), if_pos (by linarith)]
    norm_num
  · simp [buildAnchorMap, sortEntriesDesc, insertByTimeDesc, buildAnchors, nowAnchor,
      allocateGapSpace, yToTime_entryCentric, yToTimeGo]
    norm_num

/-! ## Claim C6 -/

/-- C6 counterexample: on the empty-state map built at `now = 0`,
`yToTime_entryCentric 0` returns the clock sampled at query time
(`Date.now()` in the source, here `1`), not the `now` the map was built
from — so the claimed `yToTime_entryCentric(0, map) = now` is false as
soon as the query happens at a later tick. -/
theorem emptyState_yToTime_counterexample :
    yToTime_entryCentric 0 (buildAnchorMap [] 0) 1 ≠ 0 := by
  norm_num [yToTime_entryCentric, yToTimeGo, buildAnchorMap, sortEntriesDesc,
    buildAnchors, nowAnchor, lastAnchor]

/-- C6 amended: `buildAnchorMap [] now` is exactly the single synthetic
"now" anchor at position 0; `timeToY_entryCentric now` on it is `0`; and
`yToTime_entryCentric 0` on it returns the clock sampled at query time
(`Date.now()`), which equals the map's `now` exactly when the query runs
on the same tick.  Both mappings are total (neither fails). -/
theorem emptyState_anchorMap (now clock : ℚ) :
    buildAnchorMap [] now = [nowAnchor now] ∧
      timeToY_entryCentric now (buildAnchorMap [] now) = 0 ∧
      yToTime_entryCentric 0 (buildAnchorMap [] now) clock = clock := by
  refine ⟨rfl, ?_, ?_⟩
  · simp [timeToY_entryCentric, timeToYGo, buildAnchorMap, sortEntriesDesc,
      buildAnchors, nowAnchor, lastAnchor, allocateGapSpace]
  · simp [yToTime_entryCentric, yToTimeGo, buildAnchorMap, sortEntriesDesc,
      buildAnchors, nowAnchor, lastAnchor]

/-! ## Claim C2 -/

theorem lastAnchor_mem (a : Anchor) (rest : List Anchor) :
    lastAnchor a rest ∈ a :: rest := by
  induction rest generalizing a with
  | nil => simp [lastAnchor]
  | cons b bs ih =>
      rw [lastAnchor_cons]
      exact List.mem_cons_of_mem a (ih b)

theorem oldestAnchorOf_eq (entries : List Entry) (now : ℚ) :
    oldestAnchorOf entries now =
      lastAnchor (nowAnchor now) (buildAnchors (nowAnchor now) (sortEntriesDesc entries)) :=
  rfl

/-- Every anchor time of the built map is bounded by `now` when every
entry timestamp is. -/
theorem anchor_time_le_now (entries : List Entry) (now : ℚ)
    (hall : ∀ x ∈ entries, x.timestamp ≤ now) :
    ∀ z ∈ buildAnchorMap entries now, z.time ≤ now := by
  intro z hz
  rcases List.mem_cons.1 hz with hz | hz
  · subst hz
    exact le_refl _
  · have hzt : z.time ∈
        (buildAnchors (nowAnchor now) (sortEntriesDesc entries)).map Anchor.time :=
      List.mem_map.2 ⟨z, hz, rfl⟩
    rw [buildAnchors_map_time] at hzt
    obtain ⟨x, hx, hxeq⟩ := List.mem_map.1 hzt
    rw [← hxeq]
    exact hall x ((sortEntriesDesc_perm entries).mem_iff.1 hx)

/-- C2 counterexample: on the map built from a single entry five minutes
old (`now = 0`), the future timestamp `t = 60000` (one minute ahead of
`now`) maps to `110` — the oldest anchor's position — which is not
negative, contradicting the claimed negative result. -/
theorem futureTimestamp_counterexample :
    ¬ timeToY_entryCentric 60000 (buildAnchorMap [⟨-300000, none, none⟩] 0) < 0 := by
  norm_num [timeToY_entryCentric, timeToYGo, buildAnchorMap, sortEntriesDesc,
    insertByTimeDesc, buildAnchors, nowAnchor, lastAnchor, allocateGapSpace]

/-- C2 amended: `timeToY_entryCentric` never returns a negative position
on a map built by `buildAnchorMap`; and when every entry is no newer
than `now` and `t` is strictly newer than the synthetic "now" anchor,
the result equals the oldest anchor's (non-negative) position —
`allocateGapSpace` returns `0` for the negative overflow duration, so
the future extrapolation collapses to the oldest anchor's `y`. -/
theorem futureTimestamp_nonneg (entries : List Entry) (now t : ℚ) :
    0 ≤ timeToY_entryCentric t (buildAnchorMap entries now) ∧
      ((∀ x ∈ entries, x.timestamp ≤ now) → now < t →
        timeToY_entryCentric t (buildAnchorMap entries now) =
          (oldestAnchorOf entries now).y) := by
  have hch : ChainAnchors
      (nowAnchor now :: buildAnchors (nowAnchor now) (sortEntriesDesc entries)) :=
    chainAnchors_build _ _
  constructor
  · cases hscan : timeToYGo t
        (nowAnchor now :: buildAnchors (nowAnchor now) (sortEntriesDesc entries)) with
    | some yv =>
        have h1 := timeToYGo_ge_head t (nowAnchor now) _ yv hch hscan
        have h2 : timeToY_entryCentric t (buildAnchorMap entries now) = yv :=
          timeToY_of_scan hscan
        rw [h2]
        simpa [nowAnchor] using h1
    | none =>
        have h2 := @timeToY_of_none t (nowAnchor now)
          (buildAnchors (nowAnchor now) (sortEntriesDesc entries)) hscan
        rw [show buildAnchorMap entries now =
          nowAnchor now :: buildAnchors (nowAnchor now) (sortEntriesDesc entries) from rfl]
        rw [show timeToY_entryCentric t
            (nowAnchor now :: buildAnchors (nowAnchor now) (sortEntriesDesc entries)) =
            (lastAnchor (nowAnchor now)
              (buildAnchors (nowAnchor now) (sortEntriesDesc entries))).y +
              allocateGapSpace (((lastAnchor (nowAnchor now)
                (buildAnchors (nowAnchor now) (sortEntriesDesc entries))).time - t) / 60000)
          from h2]
        have h3 := chain_y_le_last (nowAnchor now) _ hch
        have h4 := allocateGapSpace_nonneg (((lastAnchor (nowAnchor now)
          (buildAnchors (nowAnchor now) (sortEntriesDesc entries))).time - t) / 60000)
        have h5 : (nowAnchor now).y = 0 := rfl
        linarith
  · intro hall ht
    have hlt : ∀ z ∈ nowAnchor now ::
        buildAnchors (nowAnchor now) (sortEntriesDesc entries), z.time < t :=
      fun z hz => lt_of_le_of_lt (anchor_time_le_now entries now hall z hz) ht
    have hscan := timeToYGo_none_of_gt t (nowAnchor now) _ hlt
    have h2 := @timeToY_of_none t (nowAnchor now)
      (buildAnchors (nowAnchor now) (sortEntriesDesc entries)) hscan
    have holt : (lastAnchor (nowAnchor now)
        (buildAnchors (nowAnchor now) (sortEntriesDesc entries))).time < t :=
      hlt _ (lastAnchor_mem _ _)
    have hzero : allocateGapSpace (((lastAnchor (nowAnchor now)
        (buildAnchors (nowAnchor now) (sortEntriesDesc entries))).time - t) / 60000) = 0 := by
      apply allocateGapSpace_eq_zero
      apply div_nonpos_of_nonpos_of_nonneg <;> linarith
    rw [oldestAnchorOf_eq]
    rw [show buildAnchorMap entries now =
      nowAnchor now :: buildAnchors (nowAnchor now) (sortEntriesDesc entries) from rfl]
    rw [h2, hzero, add_zero]

/-- Witness for C2's amended theorem at a concrete input: single entry
five minutes old, `now = 0`, future `t = 60000`. -/
theorem futureTimestamp_nonneg_witness :
    (∀ x ∈ [(⟨-300000, none, none⟩ : Entry)], x.timestamp ≤ (0:ℚ)) ∧ (0:ℚ) < 60000 ∧
      timeToY_entryCentric 60000 (buildAnchorMap [⟨-300000, none, none⟩] 0) =
        (oldestAnchorOf [⟨-300000, none, none⟩] 0).y := by
  have hall : ∀ x ∈ [(⟨-300000, none, none⟩ : Entry)], x.timestamp ≤ (0:ℚ) := by
    intro x hx
    simp at hx
    subst hx
    norm_num
  exact ⟨hall, by norm_num,
    (futureTimestamp_nonneg [⟨-300000, none, none⟩] 0 60000).2 hall (by norm_num)⟩

/-! ## Claim C4 -/

theorem chainAnchors_chain'_gapY (L : List Anchor) (h : ChainAnchors L) :
    List.Chain' (fun u l => l.y = u.y + l.gapY) L := by
  induction L with
  | nil => simp
  | cons u rest ih =>
      cases rest with
      | nil => simp
      | cons l rs =>
          obtain ⟨hg, hy, hc⟩ := h
          exact List.chain'_cons.2 ⟨hy, ih hc⟩

theorem chainAnchors_chain'_yle (L : List Anchor) (h : ChainAnchors L) :
    List.Chain' (fun u l => u.y ≤ l.y) L := by
  induction L with
  | nil => simp
  | cons u rest ih =>
      cases rest with
      | nil => simp
      | cons l rs =>
          obtain ⟨hg, hy, hc⟩ := h
          refine List.chain'_cons.2 ⟨?_, ih hc⟩
          have := allocateGapSpace_nonneg ((u.time - l.time) / 60000)
          rw [← hg] at this
          linarith

theorem buildAnchors_headTime (a : Anchor) (s : Entry) (ss : List Entry) :
    ∃ b, (buildAnchors a (s :: ss)).head? = some b ∧ b.time = s.timestamp :=
  ⟨_, rfl, rfl⟩

theorem chain'_strict_of_nodup (l : List Entry)
    (hs : List.Chain' EntryDesc l) (hn : (l.map Entry.timestamp).Nodup) :
    List.Chain' (fun a b => b.timestamp < a.timestamp) l := by
  induction l with
  | nil => simp
  | cons x xs ih =>
      cases xs with
      | nil => simp
      | cons y ys =>
          rw [List.chain'_cons] at hs
          rw [List.map_cons, List.nodup_cons] at hn
          refine List.chain'_cons.2 ⟨?_, ih hs.2 hn.2⟩
          refine lt_of_le_of_ne hs.1 ?_
          intro heq
          apply hn.1
          rw [← heq, List.map_cons]
          exact List.mem_cons_self _ _

/-- C4 counterexample: with two entries sharing the timestamp `-60000`
(`now = 0`), the anchor times are `0, -60000, -60000` — not strictly
decreasing — refuting the claimed strict decrease for lists with
duplicate timestamps. -/
theorem anchorMap_strictTimes_counterexample :
    ¬ List.Chain' (fun u l : Anchor => l.time < u.time)
      (buildAnchorMap [⟨-60000, none, none⟩, ⟨-60000, none, none⟩] 0) := by
  norm_num [buildAnchorMap, sortEntriesDesc, insertByTimeDesc, buildAnchors, nowAnchor,
    allocateGapSpace, List.chain'_cons]

/-- C4 amended: for every entry list and `now`, the built anchor map has
non-decreasing positions and each anchor's `gapY` equals its `y` minus
the previous anchor's `y`; the times are strictly decreasing provided
the entry timestamps are pairwise distinct and all strictly earlier than
`now` — with duplicates (or entries at/after `now`) consecutive times
can tie or increase, as the counterexample shows. -/
theorem anchorMap_valid (entries : List Entry) (now : ℚ) :
    List.Chain' (fun u l => u.y ≤ l.y) (buildAnchorMap entries now) ∧
      List.Chain' (fun u l => l.y = u.y + l.gapY) (buildAnchorMap entries now) ∧
      ((entries.map Entry.timestamp).Nodup → (∀ x ∈ entries, x.timestamp < now) →
        List.Chain' (fun u l : Anchor => l.time < u.time) (buildAnchorMap entries now)) := by
  have hch : ChainAnchors
      (nowAnchor now :: buildAnchors (nowAnchor now) (sortEntriesDesc entries)) :=
    chainAnchors_build _ _
  refine ⟨chainAnchors_chain'_yle _ hch, chainAnchors_chain'_gapY _ hch, ?_⟩
  intro hn hlt
  have hperm := sortEntriesDesc_perm entries
  have hn2 : ((sortEntriesDesc entries).map Entry.timestamp).Nodup :=
    (hperm.map Entry.timestamp).nodup_iff.2 hn
  have hstrict : List.Chain' (fun a b => b.timestamp < a.timestamp)
      (sortEntriesDesc entries) :=
    chain'_strict_of_nodup _ (sortEntriesDesc_chain' entries) hn2
  have htail : List.Chain' (fun u l : Anchor => l.time < u.time)
      (buildAnchors (nowAnchor now) (sortEntriesDesc entries)) := by
    have h1 : List.Chain' (fun s t : ℚ => t < s)
        ((sortEntriesDesc entries).map Entry.timestamp) := by
      rw [List.chain'_map]
      exact hstrict
    rw [← buildAnchors_map_time _ (nowAnchor now), List.chain'_map] at h1
    exact h1
  rw [show buildAnchorMap entries now =
    nowAnchor now :: buildAnchors (nowAnchor now) (sortEntriesDesc entries) from rfl]
  cases hsorted : sortEntriesDesc entries with
  | nil => simp [buildAnchors]
  | cons s ss =>
      rw [hsorted] at htail
      refine List.chain'_cons'.2 ⟨?_, htail⟩
      intro z hz
      obtain ⟨b, hb1, hb2⟩ := buildAnchors_headTime (nowAnchor now) s ss
      rw [hb1] at hz
      simp at hz
      subst hz
      rw [hb2]
      have hsmem : s ∈ entries := hperm.mem_iff.1 (hsorted ▸ List.mem_cons_self s ss)
      exact hlt s hsmem

/-- Witness for C4's amended theorem: two distinct entries strictly in
the past of `now = 0` give strictly decreasing anchor times. -/
theorem anchorMap_valid_witness :
    ([(⟨-300000, none, none⟩ : Entry), ⟨-2400000, none, none⟩].map Entry.timestamp).Nodup ∧
      (∀ x ∈ [(⟨-300000, none, none⟩ : Entry), ⟨-2400000, none, none⟩],
        x.timestamp < (0:ℚ)) ∧
      List.Chain' (fun u l : Anchor => l.time < u.time)
        (buildAnchorMap [⟨-300000, none, none⟩, ⟨-2400000, none, none⟩] 0) := by
  have hn : ([(⟨-300000, none, none⟩ : Entry), ⟨-2400000, none, none⟩].map
      Entry.timestamp).Nodup := by norm_num
  have hlt : ∀ x ∈ [(⟨-300000, none, none⟩ : Entry), ⟨-2400000, none, none⟩],
      x.timestamp < (0:ℚ) := by
    intro x hx
    rcases List.mem_cons.1 hx with hx | hx
    · subst hx; norm_num
    · simp at hx; subst hx; norm_num
  exact ⟨hn, hlt,
    (anchorMap_valid [⟨-300000, none, none⟩, ⟨-2400000, none, none⟩] 0).2.2 hn hlt⟩

/-! ## Claim C3 -/

/-- When every entry is no newer than `now`, the whole anchor map
(including the synthetic head) has non-increasing times. -/
theorem timesNonincr_full (entries : List Entry) (now : ℚ)
    (hall : ∀ x ∈ entries, x.timestamp ≤ now) :
    TimesNonincr (nowAnchor now :: buildAnchors (nowAnchor now) (sortEntriesDesc entries)) := by
  have hts : TimesNonincr (buildAnchors (nowAnchor now) (sortEntriesDesc entries)) :=
    timesNonincr_buildAnchors _ _ (sortEntriesDesc_chain' _)
  refine List.chain'_cons'.2 ⟨?_, hts⟩
  intro z hz
  cases hsorted : sortEntriesDesc entries with
  | nil =>
      rw [hsorted] at hz
      simp [buildAnchors] at hz
  | cons s ss =>
      rw [hsorted] at hz
      obtain ⟨b, hb1, hb2⟩ := buildAnchors_headTime (nowAnchor now) s ss
      rw [hb1] at hz
      simp at hz
      subst hz
      rw [hb2]
      exact hall s ((sortEntriesDesc_perm entries).mem_iff.1
        (hsorted ▸ List.mem_cons_self s ss))

/-- C3 counterexample: one entry five minutes old, `now = 0`.  The
oldest anchor sits at time `-300000`, position `110`, and
`timeToY_entryCentric` jumps by a full 110 units across it: the value is
`110` at the anchor's own time but already `220` one millisecond older —
`timeToY_entryCentric` is not continuous at the oldest anchor, refuting
the claimed continuity of the forward mapping there. -/
theorem extrapolation_jump_counterexample :
    timeToY_entryCentric (-300000) (buildAnchorMap [⟨-300000, none, none⟩] 0) = 110 ∧
      timeToY_entryCentric (-300001) (buildAnchorMap [⟨-300000, none, none⟩] 0) = 220 := by
  constructor
  · norm_num [timeToY_entryCentric, timeToYGo, buildAnchorMap, sortEntriesDesc,
      insertByTimeDesc, buildAnchors, nowAnchor, lastAnchor, allocateGapSpace]
  · norm_num [timeToY_entryCentric, timeToYGo, buildAnchorMap, sortEntriesDesc,
      insertByTimeDesc, buildAnchors, nowAnchor, lastAnchor, allocateGapSpace]

/-- C3 amended: for an anchor map built from a non-empty entry list all
of whose timestamps are no newer than `now`, with `o` the oldest anchor:
(1) for `t` older than `o.time` the forward mapping equals
`o.y + allocateGapSpace` of the overflow duration (never truncated), and
it is monotone there; (2) the inverse mapping beyond `o.y` is the linear
`(extraY / 420) * 720`-minutes extrapolation, monotone, and continuous
at `o` (Lipschitz bound pinned to `o.time` at `o.y`); but (3) the
forward mapping is *not* continuous at `o`: its value at `o.time` is
`o.y` while every strictly older `t` yields at least `o.y + 110` — a
jump of at least the minimum positive allocation. -/
theorem extrapolation_beyond_oldest (e : Entry) (es : List Entry) (now clock : ℚ)
    (hall : ∀ x ∈ e :: es, x.timestamp ≤ now) :
    (∀ t, t < (oldestAnchorOf (e :: es) now).time →
        timeToY_entryCentric t (buildAnchorMap (e :: es) now) =
          (oldestAnchorOf (e :: es) now).y +
            allocateGapSpace (((oldestAnchorOf (e :: es) now).time - t) / 60000)) ∧
      (∀ t1 t2, t1 ≤ t2 → t2 < (oldestAnchorOf (e :: es) now).time →
        timeToY_entryCentric t2 (buildAnchorMap (e :: es) now) ≤
          timeToY_entryCentric t1 (buildAnchorMap (e :: es) now)) ∧
      timeToY_entryCentric (oldestAnchorOf (e :: es) now).time
          (buildAnchorMap (e :: es) now) = (oldestAnchorOf (e :: es) now).y ∧
      (∀ t, t < (oldestAnchorOf (e :: es) now).time →
        (oldestAnchorOf (e :: es) now).y + 110 ≤
          timeToY_entryCentric t (buildAnchorMap (e :: es) now)) ∧
      (∀ y, (oldestAnchorOf (e :: es) now).y < y →
        yToTime_entryCentric y (buildAnchorMap (e :: es) now) clock =
          (oldestAnchorOf (e :: es) now).time -
            ((y - (oldestAnchorOf (e :: es) now).y) / 420 * 720) * 60000) ∧
      (∀ y1 y2, (oldestAnchorOf (e :: es) now).y < y1 → y1 ≤ y2 →
        yToTime_entryCentric y2 (buildAnchorMap (e :: es) now) clock ≤
          yToTime_entryCentric y1 (buildAnchorMap (e :: es) now) clock) ∧
      (∀ y, (oldestAnchorOf (e :: es) now).y ≤ y →
        |yToTime_entryCentric y (buildAnchorMap (e :: es) now) clock -
            (oldestAnchorOf (e :: es) now).time| ≤
          (y - (oldestAnchorOf (e :: es) now).y) * (720 * 60000 / 420)) := by
  have hsne : sortEntriesDesc (e :: es) ≠ [] := sortEntriesDesc_cons_ne_nil e es
  have htailne : buildAnchors (nowAnchor now) (sortEntriesDesc (e :: es)) ≠ [] :=
    buildAnchors_ne_nil _ hsne
  have hch : ChainAnchors
      (nowAnchor now :: buildAnchors (nowAnchor now) (sortEntriesDesc (e :: es))) :=
    chainAnchors_build _ _
  have htsfull : TimesNonincr
      (nowAnchor now :: buildAnchors (nowAnchor now) (sortEntriesDesc (e :: es))) :=
    timesNonincr_full (e :: es) now hall
  have hts : TimesNonincr (buildAnchors (nowAnchor now) (sortEntriesDesc (e :: es))) :=
    timesNonincr_buildAnchors _ _ (sortEntriesDesc_chain' _)
  have hAeq : buildAnchorMap (e :: es) now =
      nowAnchor now :: buildAnchors (nowAnchor now) (sortEntriesDesc (e :: es)) := rfl
  have hoeq : oldestAnchorOf (e :: es) now =
      lastAnchor (nowAnchor now) (buildAnchors (nowAnchor now) (sortEntriesDesc (e :: es))) :=
    rfl
  -- the forward extrapolation identity
  have hfwd : ∀ t, t < (oldestAnchorOf (e :: es) now).time →
      timeToY_entryCentric t (buildAnchorMap (e :: es) now) =
        (oldestAnchorOf (e :: es) now).y +
          allocateGapSpace (((oldestAnchorOf (e :: es) now).time - t) / 60000) := by
    intro t htlt
    rw [hAeq, hoeq]
    rw [hoeq] at htlt
    cases htail : buildAnchors (nowAnchor now) (sortEntriesDesc (e :: es)) with
    | nil => exact absurd htail htailne
    | cons b bs =>
        rw [htail, lastAnchor_cons] at htlt
        rw [lastAnchor_cons]
        have hscan : timeToYGo t (nowAnchor now :: b :: bs) = none := by
          apply timeToYGo_none_of_lt
          intro z hz
          have h1 : (lastAnchor b bs).time ≤ z.time := by
            apply lastAnchor_time_le_mem b bs _ z hz
            rw [htail] at hts
            exact hts
          linarith
        have h2 := @timeToY_of_none t (nowAnchor now) (b :: bs) hscan
        rw [lastAnchor_cons] at h2
        exact h2
  -- the inverse extrapolation identity
  have hinv : ∀ y, (oldestAnchorOf (e :: es) now).y < y →
      yToTime_entryCentric y (buildAnchorMap (e :: es) now) clock =
        (oldestAnchorOf (e :: es) now).time -
          ((y - (oldestAnchorOf (e :: es) now).y) / 420 * 720) * 60000 := by
    intro y hylt
    rw [hAeq, hoeq]
    rw [hoeq] at hylt
    cases htail : buildAnchors (nowAnchor now) (sortEntriesDesc (e :: es)) with
    | nil => exact absurd htail htailne
    | cons b bs =>
        rw [htail, lastAnchor_cons] at hylt
        rw [lastAnchor_cons]
        have hchbs : ChainAnchors (b :: bs) := by
          have := hch
          rw [htail] at this
          exact this.2.2
        have hscan : yToTimeGo y (nowAnchor now :: b :: bs) = none := by
          apply yToTimeGo_none_of_gt
          intro z hz
          have h1 : z.y ≤ (lastAnchor b bs).y := chain_mem_y_le_last b bs hchbs z hz
          linarith
        have h2 := @yToTime_of_none y (nowAnchor now) (b :: bs) clock hscan
        rw [lastAnchor_cons] at h2
        rw [h2, if_pos hylt]
  -- the boundary values
  have hfwd0 : timeToY_entryCentric (oldestAnchorOf (e :: es) now).time
      (buildAnchorMap (e :: es) now) = (oldestAnchorOf (e :: es) now).y := by
    rw [hAeq, hoeq]
    exact timeToY_of_scan (timeToYGo_last (nowAnchor now) _ hch htsfull htailne)
  have hinv0 : yToTime_entryCentric (oldestAnchorOf (e :: es) now).y
      (buildAnchorMap (e :: es) now) clock = (oldestAnchorOf (e :: es) now).time := by
    rw [hAeq, hoeq]
    exact yToTime_of_scan (yToTimeGo_last (nowAnchor now) _ hch htsfull htailne)
  refine ⟨hfwd, ?_, hfwd0, ?_, hinv, ?_, ?_⟩
  · intro t1 t2 h12 h2lt
    rw [hfwd t1 (lt_of_le_of_lt h12 h2lt), hfwd t2 h2lt]
    have := allocateGapSpace_mono (show ((oldestAnchorOf (e :: es) now).time - t2) / 60000 ≤
      ((oldestAnchorOf (e :: es) now).time - t1) / 60000 by
        apply div_le_div_of_nonneg_right _ (by norm_num)
        linarith)
    linarith
  · intro t htlt
    rw [hfwd t htlt]
    have := allocateGapSpace_ge_of_pos (show 0 <
      ((oldestAnchorOf (e :: es) now).time - t) / 60000 from
        div_pos (by linarith) (by norm_num))
    linarith
  · intro y1 y2 h1lt h12
    rw [hinv y1 h1lt, hinv y2 (lt_of_lt_of_le h1lt h12)]
    have h : (y1 - (oldestAnchorOf (e :: es) now).y) / 420 * 720 * 60000 ≤
        (y2 - (oldestAnchorOf (e :: es) now).y) / 420 * 720 * 60000 := by
      have : (y1 - (oldestAnchorOf (e :: es) now).y) / 420 ≤
          (y2 - (oldestAnchorOf (e :: es) now).y) / 420 := by
        apply div_le_div_of_nonneg_right _ (by norm_num)
        linarith
      linarith
    linarith
  · intro y hyle
    rcases eq_or_lt_of_le hyle with heq | hlt
    · rw [← heq, hinv0]
      simp
    · rw [hinv y hlt]
      have hnn : 0 ≤ (y - (oldestAnchorOf (e :: es) now).y) / 420 * 720 * 60000 := by
        have h0 : (0:ℚ) ≤ (y - (oldestAnchorOf (e :: es) now).y) / 420 :=
          div_nonneg (by linarith) (by norm_num)
        linarith
      rw [show (oldestAnchorOf (e :: es) now).time -
          (y - (oldestAnchorOf (e :: es) now).y) / 420 * 720 * 60000 -
          (oldestAnchorOf (e :: es) now).time =
          -((y - (oldestAnchorOf (e :: es) now).y) / 420 * 720 * 60000) by ring]
      rw [abs_neg, abs_of_nonneg hnn]
      rw [show (y - (oldestAnchorOf (e :: es) now).y) * (720 * 60000 / 420) =
        (y - (oldestAnchorOf (e :: es) now).y) / 420 * 720 * 60000 by ring]

/-- Witness for C3's amended theorem: single entry five minutes old,
`now = 0`, evaluating the forward extrapolation one minute past the
oldest anchor. -/
theorem extrapolation_beyond_oldest_witness :
    (∀ x ∈ [(⟨-300000, none, none⟩ : Entry)], x.timestamp ≤ (0:ℚ)) ∧
      (-360000 : ℚ) < (oldestAnchorOf [⟨-300000, none, none⟩] 0).time ∧
      timeToY_entryCentric (-360000) (buildAnchorMap [⟨-300000, none, none⟩] 0) =
        (oldestAnchorOf [⟨-300000, none, none⟩] 0).y +
          allocateGapSpace
            (((oldestAnchorOf [⟨-300000, none, none⟩] 0).time - (-360000)) / 60000) := by
  have hall : ∀ x ∈ [(⟨-300000, none, none⟩ : Entry)], x.timestamp ≤ (0:ℚ) := by
    intro x hx
    simp at hx
    subst hx
    norm_num
  have hlt : (-360000 : ℚ) < (oldestAnchorOf [⟨-300000, none, none⟩] 0).time := by
    norm_num [oldestAnchorOf, buildAnchorMap, sortEntriesDesc, insertByTimeDesc,
      buildAnchors, nowAnchor, lastAnchor, allocateGapSpace]
  exact ⟨hall, hlt,
    (extrapolation_beyond_oldest ⟨-300000, none, none⟩ [] 0 0 hall).1 (-360000) hlt⟩
